import Mathlib

/-!
# Verification of the `digital-filter` FIR filter crate

A shallow embedding of `src/lib.rs`: the fixed-capacity single-producer
single-consumer queue `heapless::spsc::Queue<f32, N>` (usable capacity
`N - 1`, FIFO, iterated front/oldest to back/newest) is modelled as a
`List` with explicit capacity checks, and every fallible operation
(a Rust `panic!` or `.unwrap()`) is modelled in `Option`, with `none`
standing for a panic.

The scalar type is kept as a parameter `α` mirroring `type FilterItem`.
Claims about the arithmetic of the algorithm are instantiated at `ℚ`
(exact arithmetic; the source's `f32` rounding is not modelled), while
claims about IEEE-754 special values are instantiated at the `F32` model
below, which carries NaN, the infinities and the negative zero.
-/

namespace FilterModel

/-- Model of `heapless::spsc::Queue::enqueue`: append at the back when the
queue holds fewer than `cap` items, otherwise fail (`Err` in Rust). -/
def enqueue {α : Type} (cap : Nat) (q : List α) (x : α) : Option (List α) :=
  if q.length < cap then some (q ++ [x]) else none

/-- Model of `heapless::spsc::Queue::dequeue`: remove and return the front
(oldest) item, failing on an empty queue. -/
def dequeue {α : Type} (q : List α) : Option (α × List α) :=
  match q with
  | [] => none
  | x :: rest => some (x, rest)

/-- Model of `let _ = self.buffer.dequeue();` — a dequeue whose result is
discarded, leaving an empty queue unchanged. -/
def dropOldest {α : Type} (q : List α) : List α :=
  match dequeue q with
  | none => q
  | some (_, rest) => rest

/-- The `while self.buffer.dequeue().is_some() {}` loop of `clear_buffer`:
dequeue until the queue is empty. -/
def drain {α : Type} : List α → List α
  | [] => []
  | _ :: rest => drain rest

/-- The struct `DigitalFilter<N>`: `coeffs: [f32; N]` is a list whose length
plays the role of the const generic `N`, `buffer` is the queue contents
(front = oldest sample), and `num_taps` mirrors the `num_taps` field. -/
structure DigitalFilter (α : Type) where
  coeffs : List α
  buffer : List α
  num_taps : Nat
deriving DecidableEq

/-- The zero-fill loop `for _idx in 0..k { buffer.enqueue(0.).unwrap() }`
appearing in `new` and in `clear_buffer`; the `.unwrap()` panic is `none`. -/
def enqueueZeros {α : Type} [Zero α] (cap : Nat) : Nat → List α → Option (List α)
  | 0, q => some q
  | k + 1, q =>
    match enqueue cap q 0 with
    | none => none
    | some q2 => enqueueZeros cap k q2

/-- Model of `DigitalFilter::new`: `num_taps = coeffs.len() - 1`; panic unless
`coeffs[num_taps] == 0.`; then enqueue `num_taps` zeros into a fresh queue
of capacity `N - 1 = coeffs.len() - 1`.  An out-of-range index read is a
panic (`none`), covering the empty-array case. -/
def DigitalFilter.new {α : Type} [Zero α] [BEq α] (coeffs : List α) :
    Option (DigitalFilter α) :=
  let num_taps := coeffs.length - 1
  match coeffs[num_taps]? with
  | none => none
  | some sentinel =>
    if sentinel == 0 then
      match enqueueZeros (coeffs.length - 1) num_taps [] with
      | none => none
      | some buffer => some ⟨coeffs, buffer, num_taps⟩
    else none

/-- The accumulation loop of `filter`:
`let mut c_idx = num_taps; for el in buffer.iter() { c_idx -= 1; output += el * coeffs[c_idx]; }`.
The `usize` underflow of `c_idx -= 1` at `c_idx = 0` and an out-of-range
`coeffs[c_idx]` are panics (`none`). -/
def convLoop {α : Type} [Add α] [Mul α] (coeffs : List α) :
    List α → Nat → α → Option α
  | [], _, acc => some acc
  | el :: rest, c_idx, acc =>
    if c_idx = 0 then none
    else
      match coeffs[c_idx - 1]? with
      | none => none
      | some c => convLoop coeffs rest (c_idx - 1) (acc + el * c)

/-- Total companion of `convLoop`: the value the loop computes whenever it
does not panic (out-of-range coefficient reads default to `0`). -/
def convVal {α : Type} [Zero α] [Add α] [Mul α] (coeffs : List α) :
    List α → Nat → α → α
  | [], _, acc => acc
  | el :: rest, c_idx, acc =>
    convVal coeffs rest (c_idx - 1) (acc + el * coeffs.getD (c_idx - 1) 0)

/-- Model of `DigitalFilter::filter`: dequeue discarding the result, enqueue the
input with `.unwrap()`, then run the accumulation loop starting from
`output = 0` and `c_idx = num_taps`. -/
def DigitalFilter.filter {α : Type} [Zero α] [Add α] [Mul α]
    (f : DigitalFilter α) (input : α) : Option (α × DigitalFilter α) :=
  let buf1 := dropOldest f.buffer
  match enqueue (f.coeffs.length - 1) buf1 input with
  | none => none
  | some buf2 =>
    match convLoop f.coeffs buf2 f.num_taps 0 with
    | none => none
    | some out => some (out, { f with buffer := buf2 })

/-- Model of `DigitalFilter::clear_buffer`: drain the queue, then enqueue
`num_taps` zeros with `.unwrap()`. -/
def DigitalFilter.clear_buffer {α : Type} [Zero α] (f : DigitalFilter α) :
    Option (DigitalFilter α) :=
  match enqueueZeros (f.coeffs.length - 1) f.num_taps (drain f.buffer) with
  | none => none
  | some b => some { f with buffer := b }

/-- Feed a finite stream of samples one by one, collecting the outputs in
order; `none` if any call panics. -/
def runFilter {α : Type} [Zero α] [Add α] [Mul α] (f : DigitalFilter α) :
    List α → Option (List α × DigitalFilter α)
  | [] => some ([], f)
  | x :: xs =>
    match f.filter x with
    | none => none
    | some (y, f2) =>
      match runFilter f2 xs with
      | none => none
      | some (ys, f3) => some (y :: ys, f3)

/-- The sample window the history holds right after the `(k+1)`-st call,
when the history started as `B` and the inputs so far are a prefix of
`xs`: the last `|B|` entries of `B ++ xs.take (k+1)`. -/
def windowAt {α : Type} (B xs : List α) (k : Nat) : List α :=
  (B ++ xs.take (k + 1)).drop (k + 1)

/-- The spec's convolution formula, written from its words: the `k`-th
output is `Σ over j=0..n-1 of b[j] times x[k-j]`, where the input stream
`x` is zero-padded before the first call. -/
def convSpec (b xs : List ℚ) (k : Nat) : ℚ :=
  ∑ j ∈ Finset.range b.length, b.getD j 0 * (if j ≤ k then xs.getD (k - j) 0 else 0)

/-- Model of the IEEE-754 `f32` values the claims about special values
exercise: `fin q` is a finite value with `fin 0` the positive zero,
`negZero` the negative zero, plus NaN and the two infinities.  Arithmetic
on finite values is exact (the source's `f32` rounding and the sign of a
zero produced by underflow are not modelled); the special values follow
IEEE 754, which is all the theorems below rely on. -/
inductive F32 : Type
  | fin (q : ℚ)
  | negZero
  | nan
  | inf
  | negInf
deriving DecidableEq

instance : Zero F32 := ⟨F32.fin 0⟩

/-- IEEE-754 value equality, the semantics of Rust `==` on `f32`:
`-0.0 == 0.0` and NaN is unequal to everything. -/
def F32.beq : F32 → F32 → Bool
  | .fin a, .fin b => a == b
  | .fin a, .negZero => a == 0
  | .negZero, .fin b => b == 0
  | .negZero, .negZero => true
  | .inf, .inf => true
  | .negInf, .negInf => true
  | _, _ => false

instance : BEq F32 := ⟨F32.beq⟩

/-- IEEE-754 `f32` addition on the model (finite part exact). -/
def F32.add : F32 → F32 → F32
  | .nan, _ => .nan
  | _, .nan => .nan
  | .inf, .negInf => .nan
  | .negInf, .inf => .nan
  | .inf, _ => .inf
  | _, .inf => .inf
  | .negInf, _ => .negInf
  | _, .negInf => .negInf
  | .negZero, .negZero => .negZero
  | .negZero, .fin b => .fin b
  | .fin a, .negZero => .fin a
  | .fin a, .fin b => .fin (a + b)

instance : Add F32 := ⟨F32.add⟩

/-- IEEE-754 `f32` multiplication on the model (finite part exact,
zero signs of finite products included). -/
def F32.mul : F32 → F32 → F32
  | .nan, _ => .nan
  | _, .nan => .nan
  | .inf, .inf => .inf
  | .inf, .negInf => .negInf
  | .negInf, .inf => .negInf
  | .negInf, .negInf => .inf
  | .inf, .negZero => .nan
  | .negZero, .inf => .nan
  | .negInf, .negZero => .nan
  | .negZero, .negInf => .nan
  | .inf, .fin b => if b = 0 then .nan else if 0 < b then .inf else .negInf
  | .fin a, .inf => if a = 0 then .nan else if 0 < a then .inf else .negInf
  | .negInf, .fin b => if b = 0 then .nan else if 0 < b then .negInf else .inf
  | .fin a, .negInf => if a = 0 then .nan else if 0 < a then .negInf else .inf
  | .negZero, .negZero => .fin 0
  | .negZero, .fin b => if b < 0 then .fin 0 else .negZero
  | .fin a, .negZero => if a < 0 then .fin 0 else .negZero
  | .fin a, .fin b =>
    if a * b = 0 then
      (if (a < 0 ∧ 0 ≤ b) ∨ (0 ≤ a ∧ b < 0) then .negZero else .fin 0)
    else .fin (a * b)

instance : Mul F32 := ⟨F32.mul⟩

/-! ## Basic lemmas about the queue operations -/

theorem enqueueZeros_eq {α : Type} [Zero α] (cap : Nat) (k : Nat) :
    ∀ q : List α, q.length + k ≤ cap →
      enqueueZeros cap k q = some (q ++ List.replicate k 0) := by
  induction k with
  | zero => intro q _; simp [enqueueZeros]
  | succ k ih =>
    intro q h
    have hlt : q.length < cap := by omega
    simp only [enqueueZeros, enqueue, if_pos hlt]
    rw [ih (q ++ [0]) (by simp; omega)]
    simp [List.replicate_succ, List.append_assoc]

theorem drain_eq_nil {α : Type} : ∀ q : List α, drain q = [] := by
  intro q
  induction q with
  | nil => rfl
  | cons a t ih => simpa [drain] using ih

/-- Characterization of `new` on a list with its sentinel split off. -/
theorem new_append {α : Type} [Zero α] [BEq α] (b : List α) (s : α) :
    DigitalFilter.new (b ++ [s]) =
      if s == 0 then some ⟨b ++ [s], List.replicate b.length 0, b.length⟩
      else none := by
  have h1 : (b ++ [s]).length - 1 = b.length := by simp
  have h2 : (b ++ [s])[b.length]? = some s := List.getElem?_concat_length b s
  unfold DigitalFilter.new
  rw [h1]
  simp only [h2]
  by_cases hs : (s == 0) = true
  · rw [if_pos hs, if_pos hs,
      enqueueZeros_eq b.length b.length [] (by simp)]
    simp
  · rw [if_neg hs, if_neg hs]

/-- Any successfully constructed filter has the shape `new` produces. -/
theorem new_some_shape {α : Type} [Zero α] [BEq α] {cs : List α}
    {f : DigitalFilter α} (h : DigitalFilter.new cs = some f) :
    1 ≤ cs.length ∧
      f = ⟨cs, List.replicate (cs.length - 1) 0, cs.length - 1⟩ := by
  unfold DigitalFilter.new at h
  cases hg : cs[cs.length - 1]? with
  | none => simp only [hg] at h; exact absurd h (by simp)
  | some s =>
    simp only [hg] at h
    have hlen : 1 ≤ cs.length := by
      by_contra hc
      have : cs = [] := by
        cases cs with
        | nil => rfl
        | cons a t => simp at hc
      rw [this] at hg; simp at hg
    refine ⟨hlen, ?_⟩
    by_cases hs : (s == 0) = true
    · rw [if_pos hs, enqueueZeros_eq (cs.length - 1) (cs.length - 1) [] (by simp)]
        at h
      simp at h
      exact h.symm
    · rw [if_neg hs] at h; exact absurd h (by simp)

/-! ## The accumulation loop -/

theorem convLoop_eq_convVal {α : Type} [Zero α] [Add α] [Mul α]
    (coeffs : List α) :
    ∀ (buf : List α) (c : Nat) (acc : α), buf.length ≤ c → c ≤ coeffs.length →
      convLoop coeffs buf c acc = some (convVal coeffs buf c acc) := by
  intro buf
  induction buf with
  | nil => intro c acc _ _; simp [convLoop, convVal]
  | cons el rest ih =>
    intro c acc h1 h2
    have hc : ¬ c = 0 := by simp only [List.length_cons] at h1; omega
    have hidx : c - 1 < coeffs.length := by omega
    simp only [convLoop, if_neg hc, List.getElem?_eq_getElem hidx]
    rw [ih (c - 1) _ (by simp only [List.length_cons] at h1; omega) (by omega)]
    simp [convVal, List.getD_eq_getElem?_getD, List.getElem?_eq_getElem hidx]

/-- The loop only reads coefficient indices below its starting `c_idx`. -/
theorem convLoop_congr {α : Type} [Add α] [Mul α] {cs1 cs2 : List α} :
    ∀ (buf : List α) (c : Nat) (acc : α),
      (∀ i, i < c → cs1[i]? = cs2[i]?) →
      convLoop cs1 buf c acc = convLoop cs2 buf c acc := by
  intro buf
  induction buf with
  | nil => intro c acc _; rfl
  | cons el rest ih =>
    intro c acc h
    by_cases hc : c = 0
    · simp [convLoop, hc]
    · have hix : cs1[c - 1]? = cs2[c - 1]? := h _ (by omega)
      simp only [convLoop, if_neg hc, hix]
      cases cs2[c - 1]? with
      | none => rfl
      | some v => exact ih (c - 1) _ (fun i hi => h i (by omega))

/-! ## One `filter` call and full runs -/

/-- One call to `filter` on a filter satisfying the construction invariant:
it drops the oldest sample, appends the input as the newest, and returns
the loop's accumulated value. -/
theorem filter_step {α : Type} [Zero α] [Add α] [Mul α]
    (f : DigitalFilter α) (x : α)
    (hc : f.coeffs.length = f.num_taps + 1) (hb : f.buffer.length = f.num_taps)
    (hn : 1 ≤ f.num_taps) :
    f.filter x = some (convVal f.coeffs (f.buffer.tail ++ [x]) f.num_taps 0,
      ⟨f.coeffs, f.buffer.tail ++ [x], f.num_taps⟩) := by
  obtain ⟨a, t, hbt⟩ : ∃ a t, f.buffer = a :: t := by
    cases hbuf : f.buffer with
    | nil => rw [hbuf] at hb; simp at hb; omega
    | cons a t => exact ⟨a, t, rfl⟩
  have htlen : t.length = f.num_taps - 1 := by
    have := hb; rw [hbt] at this; simp at this; omega
  have hcap : t.length < f.coeffs.length - 1 := by omega
  unfold DigitalFilter.filter
  rw [hbt]
  simp only [dropOldest, dequeue, enqueue, if_pos hcap]
  rw [convLoop_eq_convVal f.coeffs (t ++ [x]) f.num_taps 0
    (by simp; omega) (by omega)]
  rfl

theorem windowAt_zero {α : Type} (B : List α) (x : α) (xs : List α)
    (hB : B ≠ []) : windowAt B (x :: xs) 0 = B.tail ++ [x] := by
  unfold windowAt
  have h1 : 1 ≤ B.length := by
    cases B with
    | nil => exact absurd rfl hB
    | cons a t => simp
  rw [List.take_succ_cons, List.take_zero, List.drop_append_of_le_length h1,
    List.drop_one]

theorem windowAt_succ {α : Type} (B : List α) (x : α) (xs : List α)
    (k : Nat) (hB : B ≠ []) :
    windowAt B (x :: xs) (k + 1) = windowAt (B.tail ++ [x]) xs k := by
  unfold windowAt
  have h1 : 1 ≤ B.length := by
    cases B with
    | nil => exact absurd rfl hB
    | cons a t => simp
  rw [List.take_succ_cons]
  rw [show k + 1 + 1 = 1 + (k + 1) by omega, ← List.drop_drop,
    List.drop_append_of_le_length h1, List.drop_one]
  congr 1
  simp [List.append_assoc]

/-- A full run from any state satisfying the construction invariant: it
never fails, the `k`-th output is the loop value on the `k`-th window, and
the final history is the last `n` entries of `B ++ xs`. -/
theorem runFilter_eq {α : Type} [Zero α] [Add α] [Mul α]
    (coeffs : List α) (n : Nat)
    (hc : coeffs.length = n + 1) (hn : 1 ≤ n) :
    ∀ (xs B : List α), B.length = n →
      runFilter ⟨coeffs, B, n⟩ xs =
        some ((List.range xs.length).map
            (fun k => convVal coeffs (windowAt B xs k) n 0),
          ⟨coeffs, (B ++ xs).drop xs.length, n⟩) := by
  intro xs
  induction xs with
  | nil => intro B hB; simp [runFilter]
  | cons x xs ih =>
    intro B hB
    have hBne : B ≠ [] := by
      intro hB0; rw [hB0] at hB; simp at hB; omega
    have hstep := filter_step ⟨coeffs, B, n⟩ x hc hB hn
    have hB2len : (B.tail ++ [x]).length = n := by
      simp [List.length_tail]
      cases B with
      | nil => exact absurd rfl hBne
      | cons a t => simp at hB ⊢; omega
    dsimp only at hstep
    have hmap : (List.range (x :: xs).length).map
        (fun k => convVal coeffs (windowAt B (x :: xs) k) n 0) =
        convVal coeffs (B.tail ++ [x]) n 0 ::
          (List.range xs.length).map
            (fun k => convVal coeffs (windowAt (B.tail ++ [x]) xs k) n 0) := by
      rw [List.length_cons, List.range_succ_eq_map, List.map_cons,
        List.map_map]
      rw [windowAt_zero B x xs hBne]
      congr 1
      apply List.map_congr_left
      intro k _
      simp only [Function.comp_apply, Nat.succ_eq_add_one]
      rw [windowAt_succ B x xs k hBne]
    have hfin : ((B.tail ++ [x]) ++ xs).drop xs.length =
        (B ++ x :: xs).drop (x :: xs).length := by
      have h1 : 1 ≤ B.length := by
        cases B with
        | nil => exact absurd rfl hBne
        | cons a t => simp
      rw [List.length_cons,
        show xs.length + 1 = 1 + xs.length by omega, ← List.drop_drop,
        List.drop_append_of_le_length h1, List.drop_one]
      congr 1
      simp [List.append_assoc]
    simp only [runFilter, hstep, ih (B.tail ++ [x]) hB2len]
    rw [hmap, hfin]

/-! ## The loop value as a sum, and agreement with the spec formula -/

theorem convVal_eq_sum (coeffs : List ℚ) :
    ∀ (buf : List ℚ) (c : Nat) (acc : ℚ), buf.length ≤ c →
      convVal coeffs buf c acc =
        acc + ∑ i ∈ Finset.range buf.length,
          buf.getD i 0 * coeffs.getD (c - 1 - i) 0 := by
  intro buf
  induction buf with
  | nil => intro c acc _; simp [convVal]
  | cons el rest ih =>
    intro c acc h
    have hlen : rest.length ≤ c - 1 := by
      simp only [List.length_cons] at h; omega
    simp only [convVal]
    rw [ih (c - 1) _ hlen]
    simp only [List.length_cons]
    rw [Finset.sum_range_succ']
    have hterm : ∀ i ∈ Finset.range rest.length,
        (el :: rest).getD (i + 1) 0 * coeffs.getD (c - 1 - (i + 1)) 0 =
        rest.getD i 0 * coeffs.getD (c - 1 - 1 - i) 0 := by
      intro i _
      rw [List.getD_cons_succ]
      congr 2
      omega
    rw [Finset.sum_congr rfl hterm]
    simp only [List.getD_cons_zero, Nat.sub_zero]
    ring

theorem windowAt_getElem {α : Type} (B xs : List α) (k i : Nat) :
    (windowAt B xs k)[i]? = (B ++ xs.take (k + 1))[(k + 1) + i]? := by
  unfold windowAt
  exact List.getElem?_drop _ _ _

theorem windowAt_length {α : Type} {B xs : List α} {n k : Nat}
    (hB : B.length = n) (hk : k < xs.length) :
    (windowAt B xs k).length = n := by
  unfold windowAt
  simp [List.length_drop, List.length_take]
  omega

/-- On the `k`-th window of a run started from the zero history, the loop
computes exactly the spec's convolution sum. -/
theorem convVal_window_eq_convSpec (b xs : List ℚ) (k : Nat)
    (_hn : 1 ≤ b.length) (hk : k < xs.length) :
    convVal (b ++ [0]) (windowAt (List.replicate b.length 0) xs k)
        b.length 0 = convSpec b xs k := by
  have hWlen : (windowAt (List.replicate b.length (0:ℚ)) xs k).length
      = b.length := windowAt_length (by simp) hk
  rw [convVal_eq_sum _ _ _ _ (le_of_eq hWlen)]
  rw [zero_add, hWlen]
  unfold convSpec
  rw [← Finset.sum_range_reflect
    (fun j => b.getD j 0 * (if j ≤ k then xs.getD (k - j) 0 else 0)) b.length]
  apply Finset.sum_congr rfl
  intro i hi
  have hi2 : i < b.length := Finset.mem_range.mp hi
  have hbidx : b.length - 1 - i < b.length := by omega
  have hco : (b ++ [0]).getD (b.length - 1 - i) 0
      = b.getD (b.length - 1 - i) 0 := by
    rw [List.getD_eq_getElem?_getD, List.getD_eq_getElem?_getD,
      List.getElem?_append, if_pos hbidx]
  have hWi : (windowAt (List.replicate b.length (0:ℚ)) xs k)[i]?
      = (List.replicate b.length (0:ℚ) ++ xs.take (k + 1))[(k + 1) + i]? :=
    windowAt_getElem _ _ _ _
  by_cases hcase : b.length - 1 - i ≤ k
  · have hge : (List.replicate b.length (0:ℚ)).length ≤ k + 1 + i := by
      simp; omega
    have hW2 : (windowAt (List.replicate b.length (0:ℚ)) xs k)[i]?
        = (xs.take (k + 1))[k - (b.length - 1 - i)]? := by
      rw [hWi, List.getElem?_append_right hge]
      congr 1
      simp
      omega
    have hlt : k - (b.length - 1 - i) < k + 1 := by omega
    rw [List.getD_eq_getElem?_getD, hW2, List.getElem?_take, if_pos hlt,
      ← List.getD_eq_getElem?_getD]
    rw [hco, if_pos hcase]
    ring
  · have hlt : (k + 1) + i < b.length := by omega
    have hW2 : (windowAt (List.replicate b.length (0:ℚ)) xs k)[i]?
        = some 0 := by
      rw [hWi, List.getElem?_append]
      simp [List.getElem?_replicate, hlt]
    rw [List.getD_eq_getElem?_getD, hW2, if_neg hcase]
    simp

/-! ## Remaining helper lemmas -/

theorem getD_append_sentinel {α : Type} [Zero α] (b : List α) (s : α)
    (i : Nat) (h : i < b.length) : (b ++ [s]).getD i 0 = b.getD i 0 := by
  rw [List.getD_eq_getElem?_getD, List.getD_eq_getElem?_getD,
    List.getElem?_append, if_pos h]

theorem clear_buffer_eq {α : Type} [Zero α] (f : DigitalFilter α)
    (hc : f.coeffs.length = f.num_taps + 1) :
    f.clear_buffer = some ⟨f.coeffs, List.replicate f.num_taps 0, f.num_taps⟩ := by
  unfold DigitalFilter.clear_buffer
  rw [drain_eq_nil, enqueueZeros_eq (f.coeffs.length - 1) f.num_taps []
    (by simp; omega)]
  simp

theorem run_output_getD {α : Type} [Zero α] (f : ℕ → α) (len k : Nat)
    (hk : k < len) :
    ((List.range len).map f).getD k 0 = f k := by
  rw [List.getD_eq_getElem?_getD, List.getElem?_map, List.getElem?_range hk]
  rfl

/-- The spec's convolution sum at an impulse input reproduces the
coefficients in forward order and is `0` afterwards. -/
theorem convSpec_impulse (b : List ℚ) (m k : Nat) :
    convSpec b (1 :: List.replicate m 0) k =
      if k < b.length then b.getD k 0 else 0 := by
  unfold convSpec
  have hx : ∀ t : Nat, (1 :: List.replicate m (0:ℚ)).getD t 0 =
      if t = 0 then 1 else 0 := by
    intro t
    cases t with
    | zero => simp
    | succ t =>
      rw [List.getD_cons_succ, if_neg (by omega)]
      rw [List.getD_eq_getElem?_getD, List.getElem?_replicate]
      by_cases h : t < m
      · rw [if_pos h]; rfl
      · rw [if_neg h]; rfl
  have hterm : ∀ j ∈ Finset.range b.length,
      b.getD j 0 * (if j ≤ k then (1 :: List.replicate m (0:ℚ)).getD (k - j) 0 else 0)
        = if j = k then b.getD j 0 else 0 := by
    intro j _
    by_cases h1 : j ≤ k
    · rw [if_pos h1, hx]
      by_cases h2 : j = k
      · rw [if_pos (by omega : k - j = 0), if_pos h2, mul_one]
      · rw [if_neg (by omega : ¬ k - j = 0), if_neg h2, mul_zero]
    · rw [if_neg h1, if_neg (by omega : ¬ j = k), mul_zero]
  rw [Finset.sum_congr rfl hterm, Finset.sum_ite_eq' (Finset.range b.length) k]
  simp [Finset.mem_range]

/-! ## The claims -/

/-- C1: a filter built by `new` from taps `b` plus the zero sentinel never
panics; each `filter` call evicts the oldest sample, appends the input as
the newest, and returns the dot product of the history (oldest to newest)
against the reversed coefficients; the `k`-th output of any run is the
spec's convolution sum over the zero-padded input stream. -/
theorem fir_C1 (b xs : List ℚ) (hb : 1 ≤ b.length) :
    DigitalFilter.new (b ++ [0]) =
      some ⟨b ++ [0], List.replicate b.length 0, b.length⟩ ∧
    runFilter (⟨b ++ [0], List.replicate b.length 0, b.length⟩ :
        DigitalFilter ℚ) xs =
      some ((List.range xs.length).map (fun k => convSpec b xs k),
        ⟨b ++ [0], (List.replicate b.length (0:ℚ) ++ xs).drop xs.length,
          b.length⟩) ∧
    ∀ (f : DigitalFilter ℚ) (x : ℚ), f.coeffs = b ++ [0] →
      f.num_taps = b.length → f.buffer.length = b.length →
      f.filter x = some
        (∑ i ∈ Finset.range b.length,
            (f.buffer.tail ++ [x]).getD i 0 * b.getD (b.length - 1 - i) 0,
          ⟨b ++ [0], f.buffer.tail ++ [x], b.length⟩) := by
  refine ⟨?_, ?_, ?_⟩
  · rw [new_append]; simp
  · rw [runFilter_eq (b ++ [0]) b.length (by simp) hb xs _ (by simp)]
    congr 2
    apply List.map_congr_left
    intro k hk
    exact convVal_window_eq_convSpec b xs k hb (List.mem_range.mp hk)
  · intro f x hcf hnf hbf
    have hstep := filter_step f x (by rw [hcf, hnf]; simp)
      (by rw [hbf, hnf]) (by rw [hnf]; exact hb)
    rw [hstep, hcf, hnf]
    have hblen : (f.buffer.tail ++ [x]).length = b.length := by
      simp [List.length_tail]; omega
    rw [convVal_eq_sum _ _ _ _ (le_of_eq hblen), zero_add, hblen]
    congr 2
    apply Finset.sum_congr rfl
    intro i hi
    rw [getD_append_sentinel b 0 _ (by
      have := Finset.mem_range.mp hi; omega)]

/-- C2: with taps `[c0, ..., c_{n-1}]` and an impulse input (a single `1`
followed by any number of zeros), the first `n` outputs reproduce the
coefficients in forward order and every later output is `0`. -/
theorem fir_C2 (b : List ℚ) (m : Nat) (hb : 1 ≤ b.length) :
    ∃ f0 ys fend, DigitalFilter.new (b ++ [0]) = some f0 ∧
      runFilter f0 (1 :: List.replicate m 0) = some (ys, fend) ∧
      ys = (List.range (m + 1)).map
        (fun k => if k < b.length then b.getD k 0 else 0) := by
  have hrun := runFilter_eq (b ++ [0]) b.length (by simp) hb
    (1 :: List.replicate m 0) (List.replicate b.length 0) (by simp)
  refine ⟨⟨b ++ [0], List.replicate b.length 0, b.length⟩, _, _,
    by rw [new_append]; simp, hrun, ?_⟩
  have hlen : (1 :: List.replicate m (0:ℚ)).length = m + 1 := by simp
  rw [hlen]
  apply List.map_congr_left
  intro k hk
  rw [convVal_window_eq_convSpec b _ k hb
    (by rw [hlen]; exact List.mem_range.mp hk)]
  exact convSpec_impulse b m k

/-- C3: for every successfully constructed filter and every sequence of
subsequent calls, the history length equals the tap count (which equals the
number of taps in the coefficient sequence) before and after every call. -/
theorem fir_C3 (b xs : List ℚ) (hb : 1 ≤ b.length) :
    ∃ f0 ys fend, DigitalFilter.new (b ++ [0]) = some f0 ∧
      f0.buffer.length = b.length ∧ f0.num_taps = b.length ∧
      runFilter f0 xs = some (ys, fend) ∧
      fend.buffer.length = b.length ∧ fend.num_taps = b.length := by
  have hrun := runFilter_eq (b ++ [0]) b.length (by simp) hb xs
    (List.replicate b.length 0) (by simp)
  exact ⟨⟨b ++ [0], List.replicate b.length 0, b.length⟩, _, _,
    by rw [new_append]; simp, by simp, rfl, hrun, by simp, rfl⟩

/-- C4: construction from an array whose trailing sentinel is non-zero
fails (the Rust panic, modelled as `none`) and yields no filter; with a
zero sentinel it succeeds, and the history holds `length - 1` zeros. -/
theorem fir_C4 (cs : List ℚ) (h : cs ≠ []) :
    (cs.getLast h ≠ 0 → DigitalFilter.new cs = none) ∧
    (cs.getLast h = 0 → DigitalFilter.new cs =
      some ⟨cs, List.replicate (cs.length - 1) 0, cs.length - 1⟩) := by
  constructor <;> intro hs
  · conv_lhs => rw [← List.dropLast_append_getLast h]
    rw [new_append, if_neg (by simpa using hs)]
  · conv_lhs => rw [← List.dropLast_append_getLast h]
    rw [new_append, if_pos (by simpa using hs)]
    rw [List.dropLast_append_getLast h, List.length_dropLast]

/-- C5: with all taps equal to `1`, the `k`-th output is the sum of the
last `n` inputs seen so far (zero-padded); in particular `n = 3` with
inputs `[4, 8, 15, 16, 23, 42]` yields `[4, 12, 27, 39, 54, 81]`. -/
theorem fir_C5 (n : Nat) (xs : List ℚ) (hn : 1 ≤ n) :
    (∃ f0 ys fend,
      DigitalFilter.new (List.replicate n (1:ℚ) ++ [0]) = some f0 ∧
      runFilter f0 xs = some (ys, fend) ∧
      ∀ k, k < xs.length → ys.getD k 0 =
        ∑ j ∈ Finset.range n, (if j ≤ k then xs.getD (k - j) 0 else 0)) ∧
    runFilter (⟨[1, 1, 1, 0], [0, 0, 0], 3⟩ : DigitalFilter ℚ)
        [4, 8, 15, 16, 23, 42] =
      some ([4, 12, 27, 39, 54, 81], ⟨[1, 1, 1, 0], [16, 23, 42], 3⟩) := by
  constructor
  · have hrun := runFilter_eq (List.replicate n (1:ℚ) ++ [0]) n (by simp) hn
      xs (List.replicate n 0) (by simp)
    refine ⟨⟨List.replicate n 1 ++ [0], List.replicate n 0, n⟩, _, _,
      by rw [new_append]; simp, hrun, ?_⟩
    · intro k hk
      rw [run_output_getD _ xs.length k hk]
      have hrep : (List.replicate n (1:ℚ)).length = n := by simp
      have hconv := convVal_window_eq_convSpec (List.replicate n 1) xs k
        (by rw [hrep]; exact hn) hk
      rw [hrep] at hconv
      rw [hconv]
      unfold convSpec
      rw [hrep]
      apply Finset.sum_congr rfl
      intro j hj
      rw [List.getD_eq_getElem?_getD, List.getElem?_replicate,
        if_pos (by simpa using List.mem_range.mp hj)]
      simp
  · norm_num [runFilter, DigitalFilter.filter, dropOldest, dequeue, enqueue,
      convLoop]

/-- C6: from any filter constructed with at least one tap and a valid
sentinel, every `filter` call succeeds — the dequeue/enqueue error
branches and the `unwrap` are unreachable — and each call leaves the
history at exactly the tap count. -/
theorem fir_C6 (b xs : List ℚ) (hb : 1 ≤ b.length) :
    ∃ f0 ys fend, DigitalFilter.new (b ++ [0]) = some f0 ∧
      runFilter f0 xs = some (ys, fend) ∧
      ∀ x : ℚ, ∃ y f2, fend.filter x = some (y, f2) ∧
        f2.buffer.length = b.length ∧ f2.num_taps = b.length := by
  refine ⟨⟨b ++ [0], List.replicate b.length 0, b.length⟩, _, _,
    by rw [new_append]; simp,
    runFilter_eq (b ++ [0]) b.length (by simp) hb xs _ (by simp), ?_⟩
  intro x
  have hlen : ((List.replicate b.length (0:ℚ) ++ xs).drop xs.length).length
      = b.length := by simp
  refine ⟨_, _, filter_step _ x (by simp) hlen hb, ?_, rfl⟩
  simp [List.length_tail, hlen]
  omega

/-- C7: after any run, `clear_buffer` never fails, restores the history to
`n` zeros — the exact post-construction state — and leaves the
coefficients and tap count unchanged. -/
theorem fir_C7 (b xs : List ℚ) (hb : 1 ≤ b.length) :
    ∃ f0 ys fend, DigitalFilter.new (b ++ [0]) = some f0 ∧
      runFilter f0 xs = some (ys, fend) ∧
      fend.clear_buffer = some f0 ∧
      f0.buffer = List.replicate b.length 0 ∧
      fend.coeffs = f0.coeffs ∧ fend.num_taps = f0.num_taps := by
  refine ⟨⟨b ++ [0], List.replicate b.length 0, b.length⟩, _, _,
    by rw [new_append]; simp,
    runFilter_eq (b ++ [0]) b.length (by simp) hb xs _ (by simp),
    ?_, rfl, rfl, rfl⟩
  exact clear_buffer_eq _ (by simp)

/-- C8: calling `clear_buffer` immediately after construction succeeds,
returns the filter to its exact post-construction state, and therefore
yields outputs identical to a freshly constructed filter on every
subsequent input sequence. -/
theorem fir_C8 (cs : List ℚ) (f0 : DigitalFilter ℚ)
    (h : DigitalFilter.new cs = some f0) :
    ∃ f1, f0.clear_buffer = some f1 ∧ f1 = f0 ∧
      ∀ xs, runFilter f1 xs = runFilter f0 xs := by
  obtain ⟨hlen, hshape⟩ := new_some_shape h
  refine ⟨f0, ?_, rfl, fun xs => rfl⟩
  rw [hshape]
  exact clear_buffer_eq _ (by simp; omega)

/-! ## Special-value lemmas for the `F32` model -/

theorem F32.nan_add (x : F32) : F32.nan + x = F32.nan := by
  cases x <;> rfl

theorem F32.add_nan (x : F32) : x + F32.nan = F32.nan := by
  cases x <;> rfl

theorem F32.nan_mul (x : F32) : F32.nan * x = F32.nan := by
  cases x <;> rfl

/-- A NaN accumulator is absorbing for the whole loop. -/
theorem convVal_nan_acc (coeffs : List F32) :
    ∀ (buf : List F32) (c : Nat), convVal coeffs buf c F32.nan = F32.nan := by
  intro buf
  induction buf with
  | nil => intro c; rfl
  | cons el rest ih =>
    intro c
    simp only [convVal, F32.nan_add]
    exact ih (c - 1)

/-- A NaN anywhere in the history makes the loop's output NaN. -/
theorem convVal_mem_nan (coeffs : List F32) :
    ∀ (buf : List F32) (c : Nat) (acc : F32), F32.nan ∈ buf →
      convVal coeffs buf c acc = F32.nan := by
  intro buf
  induction buf with
  | nil => intro c acc h; simp at h
  | cons el rest ih =>
    intro c acc h
    rcases List.mem_cons.mp h with h1 | h2
    · simp only [convVal, ← h1, F32.nan_mul, F32.add_nan]
      exact convVal_nan_acc coeffs rest (c - 1)
    · exact ih (c - 1) _ h2

/-- Two filters with equal histories and tap counts whose coefficient
sequences have equal length and agree below the tap count produce
identical output streams. -/
theorem runFilter_twin {α : Type} [Zero α] [Add α] [Mul α] :
    ∀ (xs : List α) (f g : DigitalFilter α),
      f.buffer = g.buffer → f.num_taps = g.num_taps →
      f.coeffs.length = g.coeffs.length →
      (∀ i, i < f.num_taps → f.coeffs[i]? = g.coeffs[i]?) →
      (runFilter f xs).map Prod.fst = (runFilter g xs).map Prod.fst := by
  intro xs
  induction xs with
  | nil => intro f g _ _ _ _; rfl
  | cons x xs ih =>
    intro f g hb hn hl hc
    simp only [runFilter]
    unfold DigitalFilter.filter
    rw [hb, hl]
    cases henq : enqueue (g.coeffs.length - 1) (dropOldest g.buffer) x with
    | none => simp only [henq]
    | some buf2 =>
      simp only [henq]
      have hcl : convLoop f.coeffs buf2 f.num_taps 0
          = convLoop g.coeffs buf2 g.num_taps 0 := by
        rw [← hn]
        exact convLoop_congr buf2 f.num_taps 0 hc
      rw [hcl]
      cases hcv : convLoop g.coeffs buf2 g.num_taps 0 with
      | none => simp only [hcv]
      | some y =>
        simp only [hcv]
        have hsub := ih { f with buffer := buf2 } { g with buffer := buf2 }
          rfl hn hl hc
        cases hr1 : runFilter { f with buffer := buf2 } xs with
        | none =>
          cases hr2 : runFilter { g with buffer := buf2 } xs with
          | none => rfl
          | some p => rw [hr1, hr2] at hsub; simp at hsub
        | some p =>
          cases hr2 : runFilter { g with buffer := buf2 } xs with
          | none => rw [hr1, hr2] at hsub; simp at hsub
          | some p2 =>
            rw [hr1, hr2] at hsub
            simp at hsub
            simp [hsub]

/-- C9: `filter` accepts NaN and infinity inputs without validation or
failure; a NaN supplied at call `k` makes outputs `k .. k+n-1` NaN, and
once it ages out of the history every output from call `k+n` on is
independent of the sample supplied at call `k`. -/
theorem fir_C9 (b xs : List F32) (k : Nat) (hb : 1 ≤ b.length)
    (hk : k < xs.length) (hnan : xs.getD k 0 = F32.nan) :
    ∃ f0, DigitalFilter.new (b ++ [0]) = some f0 ∧
      (∀ zs : List F32, (runFilter f0 zs).isSome) ∧
      ∃ ys fend, runFilter f0 xs = some (ys, fend) ∧
        (∀ j, k ≤ j → j < k + b.length → j < xs.length →
          ys.getD j 0 = F32.nan) ∧
        (∀ xs2 ys2 fend2, xs2.length = xs.length →
          (∀ i, i ≠ k → xs2.getD i 0 = xs.getD i 0) →
          runFilter f0 xs2 = some (ys2, fend2) →
          ∀ j, k + b.length ≤ j → ys2.getD j 0 = ys.getD j 0) := by
  have hxk : xs[k]? = some F32.nan := by
    rw [List.getD_eq_getElem?_getD, List.getElem?_eq_getElem hk] at hnan
    rw [List.getElem?_eq_getElem hk]
    simpa using hnan
  refine ⟨⟨b ++ [0], List.replicate b.length 0, b.length⟩,
    by rw [new_append, if_pos (by decide : ((0:F32) == 0) = true)], ?_, ?_⟩
  · intro zs
    rw [runFilter_eq (b ++ [0]) b.length (by simp) hb zs
      (List.replicate b.length 0) (by simp)]
    rfl
  · have hrun := runFilter_eq (b ++ [0]) b.length (by simp) hb xs
      (List.replicate b.length 0) (by simp)
    refine ⟨_, _, hrun, ?_, ?_⟩
    · intro j hj1 hj2 hj3
      rw [run_output_getD _ xs.length j hj3]
      apply convVal_mem_nan
      apply List.mem_iff_getElem?.mpr
      refine ⟨b.length + k - (j + 1), ?_⟩
      rw [windowAt_getElem]
      rw [show (j + 1) + (b.length + k - (j + 1)) = b.length + k by omega]
      rw [List.getElem?_append_right (by simp)]
      rw [List.getElem?_take, if_pos (by simp; omega)]
      rw [show b.length + k - (List.replicate b.length (0:F32)).length = k by
        simp]
      exact hxk
    · intro xs2 ys2 fend2 hlen hagree hrun2 j hj
      have hag2 : ∀ i, i ≠ k → xs2[i]? = xs[i]? := by
        intro i hi
        by_cases hlt : i < xs.length
        · have hlt2 : i < xs2.length := by omega
          have := hagree i hi
          rw [List.getD_eq_getElem?_getD, List.getD_eq_getElem?_getD,
            List.getElem?_eq_getElem hlt, List.getElem?_eq_getElem hlt2]
            at this
          rw [List.getElem?_eq_getElem hlt, List.getElem?_eq_getElem hlt2]
          simpa using this
        · rw [List.getElem?_eq_none (by omega), List.getElem?_eq_none (by omega)]
      have hrun2eq := runFilter_eq (b ++ [0]) b.length (by simp) hb xs2
        (List.replicate b.length 0) (by simp)
      rw [hrun2eq] at hrun2
      have hys2 : ys2 = (List.range xs2.length).map
          (fun k2 => convVal (b ++ [0])
            (windowAt (List.replicate b.length 0) xs2 k2) b.length 0) := by
        have := hrun2
        simp only [Option.some_inj] at this
        exact (congrArg Prod.fst this).symm
      by_cases hj2 : j < xs.length
      · have hj3 : j < xs2.length := by omega
        rw [hys2, run_output_getD _ xs2.length j hj3,
          run_output_getD _ xs.length j hj2]
        have hwin : windowAt (List.replicate b.length (0:F32)) xs2 j
            = windowAt (List.replicate b.length 0) xs j := by
          apply List.ext_getElem?
          intro i
          rw [windowAt_getElem, windowAt_getElem,
            List.getElem?_append, List.getElem?_append]
          simp only [List.length_replicate]
          by_cases hc1 : (j + 1) + i < b.length
          · rw [if_pos hc1, if_pos hc1]
          · rw [if_neg hc1, if_neg hc1, List.getElem?_take, List.getElem?_take]
            by_cases hc2 : (j + 1) + i - b.length < j + 1
            · rw [if_pos hc2, if_pos hc2, hag2 _ (by omega)]
            · rw [if_neg hc2, if_neg hc2]
        rw [hwin]
      · rw [hys2]
        rw [List.getD_eq_default _ _ (by simp; omega),
          List.getD_eq_default _ _ (by simp; omega)]

/-- C10: the sentinel check uses IEEE-754 value equality: a trailing
negative zero passes it and the filter then behaves exactly as with a
positive zero sentinel, while a trailing NaN fails construction. -/
theorem fir_C10 (b : List F32) :
    (∃ f g, DigitalFilter.new (b ++ [F32.negZero]) = some f ∧
      DigitalFilter.new (b ++ [F32.fin 0]) = some g ∧
      ∀ xs, (runFilter f xs).map Prod.fst = (runFilter g xs).map Prod.fst) ∧
    DigitalFilter.new (b ++ [F32.nan]) = none := by
  constructor
  · refine ⟨⟨b ++ [F32.negZero], List.replicate b.length 0, b.length⟩,
      ⟨b ++ [F32.fin 0], List.replicate b.length 0, b.length⟩,
      by rw [new_append]; simp [show (F32.negZero == (0:F32)) = true from by
        decide], ?_, ?_⟩
    · rw [new_append]
      simp [show ((F32.fin 0 : F32) == (0:F32)) = true from by decide]
    · intro xs
      refine runFilter_twin xs
        ⟨b ++ [F32.negZero], List.replicate b.length 0, b.length⟩
        ⟨b ++ [F32.fin 0], List.replicate b.length 0, b.length⟩
        rfl rfl (by simp) ?_
      intro i hi
      simp only at hi
      rw [List.getElem?_append, List.getElem?_append, if_pos hi, if_pos hi]
  · rw [new_append]
    simp [show ((F32.nan : F32) == (0:F32)) = false from by decide]


/-! ## Concrete witnesses -/

theorem fir_C1_witness :
    (1 ≤ ([1] : List ℚ).length) ∧
    (DigitalFilter.new ([1] ++ [0] : List ℚ) =
      some ⟨[1] ++ [0], List.replicate 1 0, 1⟩ ∧
    runFilter (⟨[1] ++ [0], List.replicate 1 0, 1⟩ : DigitalFilter ℚ) [2, 3] =
      some ((List.range 2).map (fun k => convSpec [1] [2, 3] k),
        ⟨[1] ++ [0], (List.replicate 1 (0:ℚ) ++ [2, 3]).drop 2, 1⟩) ∧
    (⟨[1] ++ [0], [9], 1⟩ : DigitalFilter ℚ).filter 5 = some
      (∑ i ∈ Finset.range 1,
          (([9] : List ℚ).tail ++ [5]).getD i 0 * ([1] : List ℚ).getD (1 - 1 - i) 0,
        ⟨[1] ++ [0], ([9] : List ℚ).tail ++ [5], 1⟩)) := by
  have h := fir_C1 [1] [2, 3] (by decide)
  exact ⟨by decide, h.1, h.2.1, h.2.2 ⟨[1] ++ [0], [9], 1⟩ 5 rfl rfl (by decide)⟩

theorem fir_C2_witness :
    (1 ≤ ([5, 7] : List ℚ).length) ∧
    (∃ f0 ys fend, DigitalFilter.new (([5, 7] : List ℚ) ++ [0]) = some f0 ∧
      runFilter f0 (1 :: List.replicate 3 0) = some (ys, fend) ∧
      ys = (List.range (3 + 1)).map
        (fun k => if k < ([5, 7] : List ℚ).length
          then ([5, 7] : List ℚ).getD k 0 else 0)) :=
  ⟨by decide, fir_C2 [5, 7] 3 (by decide)⟩

theorem fir_C3_witness :
    (1 ≤ ([1, 2] : List ℚ).length) ∧
    (∃ f0 ys fend, DigitalFilter.new (([1, 2] : List ℚ) ++ [0]) = some f0 ∧
      f0.buffer.length = ([1, 2] : List ℚ).length ∧
      f0.num_taps = ([1, 2] : List ℚ).length ∧
      runFilter f0 [3] = some (ys, fend) ∧
      fend.buffer.length = ([1, 2] : List ℚ).length ∧
      fend.num_taps = ([1, 2] : List ℚ).length) :=
  ⟨by decide, fir_C3 [1, 2] [3] (by decide)⟩

theorem fir_C4_witness :
    (([1, 1] : List ℚ) ≠ []) ∧
    DigitalFilter.new ([1, 1] : List ℚ) = none ∧
    DigitalFilter.new ([1, 2, 0] : List ℚ) =
      some ⟨[1, 2, 0], List.replicate 2 0, 2⟩ := by
  refine ⟨by simp, ?_, ?_⟩
  · exact (fir_C4 [1, 1] (by simp)).1 (by norm_num)
  · exact (fir_C4 [1, 2, 0] (by simp)).2 (by norm_num)

theorem fir_C5_witness :
    (1 ≤ 3) ∧
    ((∃ f0 ys fend,
      DigitalFilter.new (List.replicate 3 (1:ℚ) ++ [0]) = some f0 ∧
      runFilter f0 [4, 8, 15, 16, 23, 42] = some (ys, fend) ∧
      ∀ k, k < ([4, 8, 15, 16, 23, 42] : List ℚ).length → ys.getD k 0 =
        ∑ j ∈ Finset.range 3,
          (if j ≤ k then ([4, 8, 15, 16, 23, 42] : List ℚ).getD (k - j) 0
            else 0)) ∧
    runFilter (⟨[1, 1, 1, 0], [0, 0, 0], 3⟩ : DigitalFilter ℚ)
        [4, 8, 15, 16, 23, 42] =
      some ([4, 12, 27, 39, 54, 81], ⟨[1, 1, 1, 0], [16, 23, 42], 3⟩)) :=
  ⟨by decide, fir_C5 3 [4, 8, 15, 16, 23, 42] (by decide)⟩

theorem fir_C6_witness :
    (1 ≤ ([1] : List ℚ).length) ∧
    (∃ f0 ys fend, DigitalFilter.new (([1] : List ℚ) ++ [0]) = some f0 ∧
      runFilter f0 [2] = some (ys, fend) ∧
      ∀ x : ℚ, ∃ y f2, fend.filter x = some (y, f2) ∧
        f2.buffer.length = ([1] : List ℚ).length ∧
        f2.num_taps = ([1] : List ℚ).length) :=
  ⟨by decide, fir_C6 [1] [2] (by decide)⟩

theorem fir_C7_witness :
    (1 ≤ ([1] : List ℚ).length) ∧
    (∃ f0 ys fend, DigitalFilter.new (([1] : List ℚ) ++ [0]) = some f0 ∧
      runFilter f0 [2, 3] = some (ys, fend) ∧
      fend.clear_buffer = some f0 ∧
      f0.buffer = List.replicate ([1] : List ℚ).length 0 ∧
      fend.coeffs = f0.coeffs ∧ fend.num_taps = f0.num_taps) :=
  ⟨by decide, fir_C7 [1] [2, 3] (by decide)⟩

theorem fir_C8_witness :
    (DigitalFilter.new ([1, 0] : List ℚ) = some ⟨[1, 0], [0], 1⟩) ∧
    (∃ f1, (⟨[1, 0], [0], 1⟩ : DigitalFilter ℚ).clear_buffer = some f1 ∧
      f1 = ⟨[1, 0], [0], 1⟩ ∧
      ∀ xs, runFilter f1 xs =
        runFilter (⟨[1, 0], [0], 1⟩ : DigitalFilter ℚ) xs) := by
  have hnew : DigitalFilter.new ([1, 0] : List ℚ) = some ⟨[1, 0], [0], 1⟩ := by
    rw [show ([1, 0] : List ℚ) = [1] ++ [0] from rfl, new_append]
    norm_num
  exact ⟨hnew, fir_C8 [1, 0] ⟨[1, 0], [0], 1⟩ hnew⟩

theorem fir_C9_witness :
    (1 ≤ ([F32.fin 1] : List F32).length) ∧
    (0 < ([F32.nan, F32.fin 2] : List F32).length) ∧
    ([F32.nan, F32.fin 2] : List F32).getD 0 0 = F32.nan ∧
    (∃ f0, DigitalFilter.new (([F32.fin 1] : List F32) ++ [0]) = some f0 ∧
      (∀ zs : List F32, (runFilter f0 zs).isSome) ∧
      ∃ ys fend, runFilter f0 [F32.nan, F32.fin 2] = some (ys, fend) ∧
        (∀ j, 0 ≤ j → j < 0 + ([F32.fin 1] : List F32).length →
          j < ([F32.nan, F32.fin 2] : List F32).length →
          ys.getD j 0 = F32.nan) ∧
        (∀ xs2 ys2 fend2,
          xs2.length = ([F32.nan, F32.fin 2] : List F32).length →
          (∀ i, i ≠ 0 →
            xs2.getD i 0 = ([F32.nan, F32.fin 2] : List F32).getD i 0) →
          runFilter f0 xs2 = some (ys2, fend2) →
          ∀ j, 0 + ([F32.fin 1] : List F32).length ≤ j →
            ys2.getD j 0 = ys.getD j 0)) :=
  ⟨by decide, by decide, by decide,
    fir_C9 [F32.fin 1] [F32.nan, F32.fin 2] 0 (by decide) (by decide)
      (by decide)⟩


end FilterModel
